import Mathlib

/-!
Verification of the Book-Alchemy library application.

This file gives a shallow embedding of `data_models.normalize_name`, the
`Author` / `Book` data model, and the `add_author` / `delete_book`
operations of `app.py`, together with theorems settling the
specification claims.  Strings are modelled as `List Char`; each regex
substitution of the source is modelled by an explicit recursive function
with the same scanning semantics.
-/

namespace BookAlchemy

/-- Python `\s` / `str.isspace` membership for a character: ASCII
whitespace, the file/group/record/unit separators, NEL, NBSP, OGHAM
space, the Unicode space separators, and the line/paragraph separators. -/
def isPySpace (c : Char) : Bool :=
  decide (c.toNat = 9 ∨ c.toNat = 10 ∨ c.toNat = 11 ∨ c.toNat = 12 ∨ c.toNat = 13 ∨
    (28 ≤ c.toNat ∧ c.toNat ≤ 31) ∨ c.toNat = 32 ∨ c.toNat = 133 ∨ c.toNat = 160 ∨
    c.toNat = 5760 ∨ (8192 ≤ c.toNat ∧ c.toNat ≤ 8202) ∨ c.toNat = 8232 ∨
    c.toNat = 8233 ∨ c.toNat = 8239 ∨ c.toNat = 8287 ∨ c.toNat = 12288)

/-- The regex character class `[a-z]`. -/
def isAsciiLower (c : Char) : Bool := decide (97 ≤ c.toNat ∧ c.toNat ≤ 122)

/-- Python `\w` (word character) on the repertoire reachable in this
pipeline: ASCII alphanumerics, underscore and the Latin-1 letters. -/
def isWordChar (c : Char) : Bool :=
  decide ((48 ≤ c.toNat ∧ c.toNat ≤ 57) ∨ (65 ≤ c.toNat ∧ c.toNat ≤ 90) ∨
    (97 ≤ c.toNat ∧ c.toNat ≤ 122) ∨ c.toNat = 95 ∨ c.toNat = 170 ∨ c.toNat = 181 ∨
    c.toNat = 186 ∨ (192 ≤ c.toNat ∧ c.toNat ≤ 255 ∧ c.toNat ≠ 215 ∧ c.toNat ≠ 247))

/-- `re.sub(r"[.,']", " ", ...)` as a character map: a period (46), a
comma (44) or an apostrophe (39) becomes a single space. -/
def punctToSpace (c : Char) : Char :=
  if c.toNat = 46 ∨ c.toNat = 44 ∨ c.toNat = 39 then ' ' else c

/-- Decomposition table for `unicodedata.normalize("NFKD", ...)`
restricted to the Latin-1 letters whose canonical decomposition is a
base letter followed by combining marks (which the source then strips). -/
def nfkdTable : List (Char × Char) :=
  [('À', 'A'), ('Á', 'A'), ('Â', 'A'), ('Ã', 'A'), ('Ä', 'A'), ('Å', 'A'),
   ('Ç', 'C'), ('È', 'E'), ('É', 'E'), ('Ê', 'E'), ('Ë', 'E'),
   ('Ì', 'I'), ('Í', 'I'), ('Î', 'I'), ('Ï', 'I'), ('Ñ', 'N'),
   ('Ò', 'O'), ('Ó', 'O'), ('Ô', 'O'), ('Õ', 'O'), ('Ö', 'O'),
   ('Ù', 'U'), ('Ú', 'U'), ('Û', 'U'), ('Ü', 'U'), ('Ý', 'Y'),
   ('à', 'a'), ('á', 'a'), ('â', 'a'), ('ã', 'a'), ('ä', 'a'), ('å', 'a'),
   ('ç', 'c'), ('è', 'e'), ('é', 'e'), ('ê', 'e'), ('ë', 'e'),
   ('ì', 'i'), ('í', 'i'), ('î', 'i'), ('ï', 'i'), ('ñ', 'n'),
   ('ò', 'o'), ('ó', 'o'), ('ô', 'o'), ('õ', 'o'), ('ö', 'o'),
   ('ù', 'u'), ('ú', 'u'), ('û', 'u'), ('ü', 'u'), ('ý', 'y'), ('ÿ', 'y')]

/-- One character through NFKD decomposition followed by removal of
combining marks (`unicodedata.combining`): a combining mark
(U+0300–U+036F) disappears, an accented Latin-1 letter collapses to its
base letter and every other modelled character stays itself. -/
def nfkdStrip (c : Char) : List Char :=
  if 768 ≤ c.toNat ∧ c.toNat ≤ 879 then []
  else
    match nfkdTable.find? (fun p => p.1 == c) with
    | some p => [p.2]
    | none => [c]

/-- Lower-casing table for `str.lower` on the repertoire reachable after
`nfkdStrip`: ASCII upper case plus the undecomposed Latin-1 letters. -/
def lowerTable : List (Char × Char) :=
  [('A', 'a'), ('B', 'b'), ('C', 'c'), ('D', 'd'), ('E', 'e'), ('F', 'f'),
   ('G', 'g'), ('H', 'h'), ('I', 'i'), ('J', 'j'), ('K', 'k'), ('L', 'l'),
   ('M', 'm'), ('N', 'n'), ('O', 'o'), ('P', 'p'), ('Q', 'q'), ('R', 'r'),
   ('S', 's'), ('T', 't'), ('U', 'u'), ('V', 'v'), ('W', 'w'), ('X', 'x'),
   ('Y', 'y'), ('Z', 'z'), ('Æ', 'æ'), ('Ð', 'ð'), ('Ø', 'ø'), ('Þ', 'þ')]

/-- Python `str.lower` for one character (identity outside the table). -/
def pyLower (c : Char) : Char :=
  match lowerTable.find? (fun p => p.1 == c) with
  | some p => p.2
  | none => c

/-- `re.sub(r"\s+", " ", ...)`: every maximal run of whitespace becomes
one single space character. -/
def collapseWS : List Char → List Char
  | [] => []
  | [c] => if isPySpace c then [' '] else [c]
  | c :: d :: r =>
    if isPySpace c && isPySpace d then collapseWS (d :: r)
    else (if isPySpace c then ' ' else c) :: collapseWS (d :: r)

/-- Remove a trailing run of whitespace (the right half of `str.strip`). -/
def dropTrailingWS : List Char → List Char
  | [] => []
  | c :: r =>
    match dropTrailingWS r with
    | [] => if isPySpace c then [] else [c]
    | d :: t => c :: d :: t

/-- Python `str.strip()`: drop leading and trailing whitespace. -/
def pyStrip (l : List Char) : List Char := dropTrailingWS (l.dropWhile isPySpace)

/-- Python `str.split(",")`. -/
def splitComma : List Char → List (List Char)
  | [] => [[]]
  | c :: r =>
    if c = ',' then [] :: splitComma r
    else
      match splitComma r with
      | p :: rest => (c :: p) :: rest
      | [] => [[c]]

/-- The body of the dead reorder branch of `normalize_name`: split on
commas, strip each part, and when there are exactly two parts rebuild
the string as `"{parts[1]} {parts[0]}"`. -/
def commaReorder (s : List Char) : List Char :=
  match (splitComma s).map pyStrip with
  | [p0, p1] => p1 ++ ' ' :: p0
  | _ => s

/-- Is there a word boundary (`\b`) between `prev` and a following word
character?  `none` stands for the start of the string. -/
def atBoundary : Option Char → Bool
  | none => true
  | some p => !isWordChar p

/-- Is there a word boundary (`\b`) between a word character and the
following rest of the string? -/
def wordBoundaryAfter : List Char → Bool
  | [] => true
  | e :: _ => !isWordChar e

/-- Attempt to match the tail `\s+([a-z])\b` of the initials-merge
pattern at the front of `l`, returning the captured letter and the rest
of the string after the match. -/
def matchTail (l : List Char) : Option (Char × List Char) :=
  match l.takeWhile isPySpace, l.dropWhile isPySpace with
  | [], _ => none
  | _ :: _, d :: rest2 =>
    if isAsciiLower d && wordBoundaryAfter rest2 then some (d, rest2) else none
  | _ :: _, [] => none

/-- The scanning loop of `re.sub(r"\b([a-z])\s+([a-z])\b", r"\1\2", ...)`:
left-to-right, non-overlapping; on a match the two letters are emitted
with the whitespace dropped and scanning resumes after the match; on a
failed attempt one character is copied.  `prev` is the character before
the current position (for `\b`), and the fuel bounds the recursion (the
wrapper supplies more fuel than the scan can consume). -/
def mergeInitialsF : Nat → Option Char → List Char → List Char
  | 0, _, l => l
  | _ + 1, _, [] => []
  | fuel + 1, prev, c :: rest =>
    if atBoundary prev && isAsciiLower c then
      match matchTail rest with
      | some (d, rest2) => c :: d :: mergeInitialsF fuel (some d) rest2
      | none => c :: mergeInitialsF fuel (some c) rest
    else c :: mergeInitialsF fuel (some c) rest

/-- `re.sub(r"\b([a-z])\s+([a-z])\b", r"\1\2", ...)`, the initials-merge
step of `normalize_name`. -/
def mergeInitials (l : List Char) : List Char := mergeInitialsF (l.length + 1) none l

/-- The regex class `[a-z\s]` kept by `re.sub(r"[^a-z\s]", "", ...)`. -/
def keepChar (c : Char) : Bool := isAsciiLower c || isPySpace c

/-- Unicode decomposition stage of `normalize_name`. -/
def stageNFKD : List Char → List Char
  | [] => []
  | c :: r => nfkdStrip c ++ stageNFKD r

/-- Punctuation-replacement stage of `normalize_name`. -/
def stagePunct (s : List Char) : List Char := s.map punctToSpace

/-- `re.sub(r"\s+", " ", name).strip().lower()` of `normalize_name`. -/
def stageCollapseLower (s : List Char) : List Char :=
  (pyStrip (collapseWS s)).map pyLower

/-- The `if "," in name` reorder branch of `normalize_name`. -/
def stageReorder (s : List Char) : List Char :=
  if ',' ∈ s then commaReorder s else s

/-- The final two steps of `normalize_name`: keep only `[a-z\s]`, then
collapse whitespace runs and strip. -/
def stageFinal (s : List Char) : List Char :=
  pyStrip (collapseWS (s.filter keepChar))

/-- `data_models.normalize_name`, stage by stage in source order. -/
def normalize_name (s : List Char) : List Char :=
  if s.isEmpty then []
  else
    stageFinal (mergeInitials (stageReorder (stageCollapseLower (stagePunct (stageNFKD s)))))

/-- `normalize_name` on Lean strings. -/
def normalizeName (s : String) : String := String.mk (normalize_name (s.data))

/-! ## The application model: data model and operations of `app.py` -/

/-- A `datetime.date` value as produced by `date.fromisoformat`. -/
structure PyDate where
  year : Nat
  month : Nat
  day : Nat
deriving DecidableEq

/-- Gregorian leap-year rule used by `datetime.date` validation. -/
def isLeapYear (y : Nat) : Bool := decide (y % 4 = 0 ∧ (y % 100 ≠ 0 ∨ y % 400 = 0))

/-- Number of days in a month, as validated by `datetime.date`. -/
def daysInMonth (y m : Nat) : Nat :=
  if m = 2 then (if isLeapYear y then 29 else 28)
  else if m = 4 ∨ m = 6 ∨ m = 9 ∨ m = 11 then 30 else 31

/-- Is `c` an ASCII decimal digit? -/
def isDigit (c : Char) : Bool := decide (48 ≤ c.toNat ∧ c.toNat ≤ 57)

/-- Numeric value of an ASCII digit. -/
def digitVal (c : Char) : Nat := c.toNat - 48

/-- `date.fromisoformat` on the dashed `YYYY-MM-DD` form the add-author
form submits: ten characters, digits in the date positions, dashes at
positions 4 and 7, and a calendar-valid year/month/day. -/
def fromIsoFormat (s : List Char) : Option PyDate :=
  match s with
  | [y1, y2, y3, y4, h1, m1, m2, h2, d1, d2] =>
    if isDigit y1 && isDigit y2 && isDigit y3 && isDigit y4 && (h1 == '-') &&
        isDigit m1 && isDigit m2 && (h2 == '-') && isDigit d1 && isDigit d2 then
      let y := ((digitVal y1 * 10 + digitVal y2) * 10 + digitVal y3) * 10 + digitVal y4
      let m := digitVal m1 * 10 + digitVal m2
      let d := digitVal d1 * 10 + digitVal d2
      if 1 ≤ y ∧ 1 ≤ m ∧ m ≤ 12 ∧ 1 ≤ d ∧ d ≤ daysInMonth y m then some ⟨y, m, d⟩
      else none
    else none
  | _ => none

/-- `app.parse_iso_date`: empty input gives `None`; otherwise the input
is stripped and parsed, with a parse failure mapped to `None`. -/
def parse_iso_date (s : List Char) : Option PyDate :=
  if s.isEmpty then none else fromIsoFormat (pyStrip s)

/-- A row of the `authors` table.  `normalized_name` is declared
`nullable=False, unique=True` in `data_models.Author`; the `Option`
records whether the attribute was actually assigned. -/
structure AuthorRec where
  id : Nat
  name : List Char
  normalized_name : Option (List Char)
  birth_date : Option PyDate
  date_of_death : Option PyDate
deriving DecidableEq

/-- A row of the `books` table. -/
structure BookRec where
  id : Nat
  isbn : List Char
  title : List Char
  publication_year : Option Nat
  author_id : Nat
deriving DecidableEq

/-- The persisted state: the two tables. -/
structure LibraryDB where
  authors : List AuthorRec
  books : List BookRec
deriving DecidableEq

/-- Autoincrement: the next primary key for the authors table. -/
def freshId (db : LibraryDB) : Nat := (db.authors.map (fun a => a.id)).foldr max 0 + 1

/-- The `Author(...)` constructor call in `add_author`: it passes `name`,
`birth_date` and `date_of_death` only, so `normalized_name` is left
unassigned (`none`, i.e. SQL `NULL` — the column has no default). -/
def authorFromForm (id : Nat) (name : List Char) (b d : Option PyDate) : AuthorRec :=
  { id := id, name := name, normalized_name := none, birth_date := b, date_of_death := d }

/-- `db.session.add(...); db.session.commit()` for an author row, with
the constraints declared on the `authors` table: `normalized_name` is
`NOT NULL` and both `name` and `normalized_name` are `UNIQUE`.  A
violated constraint makes the commit raise (`none`). -/
def commitAuthor (db : LibraryDB) (a : AuthorRec) : Option LibraryDB :=
  match a.normalized_name with
  | none => none
  | some nn =>
    if db.authors.any (fun x => x.name == a.name) then none
    else if db.authors.any (fun x => x.normalized_name == some nn) then none
    else some { db with authors := db.authors ++ [a] }

/-- The possible outcomes of a POST to `add_author`. -/
inductive AddAuthorOutcome where
  | missingName
  | invalidDate
  | added (db : LibraryDB)
  | uncaughtIntegrityError
deriving DecidableEq

/-- The POST branch of `app.add_author`: strip the form fields, reject a
missing name, reject an ill-formed non-empty date, then construct the
`Author` and commit it.  The source wraps the commit in no handler, so a
constraint violation surfaces as an uncaught `IntegrityError`. -/
def add_author (db : LibraryDB) (nameField birthField deathField : List Char) :
    AddAuthorOutcome :=
  let name := pyStrip nameField
  let bRaw := pyStrip birthField
  let dRaw := pyStrip deathField
  if name.isEmpty then AddAuthorOutcome.missingName
  else
    let birth := parse_iso_date bRaw
    let death := parse_iso_date dRaw
    if (!bRaw.isEmpty && birth.isNone) || (!dRaw.isEmpty && death.isNone) then
      AddAuthorOutcome.invalidDate
    else
      match commitAuthor db (authorFromForm (freshId db) name birth death) with
      | none => AddAuthorOutcome.uncaughtIntegrityError
      | some db2 => AddAuthorOutcome.added db2

/-- The author-table invariant claimed by the spec: every stored author
carries `normalized_name = normalize_name name`, and no two authors
share a normalized name. -/
def authorsInvariant (l : List AuthorRec) : Prop :=
  (∀ a ∈ l, a.normalized_name = some (normalize_name (a.name))) ∧
  l.Pairwise (fun a b => a.normalized_name ≠ b.normalized_name)

/-- The possible outcomes of a POST to `delete_book`. -/
inductive DeleteOutcome where
  | notFound
  | crashed (db : LibraryDB)
  | ok (db : LibraryDB)
deriving DecidableEq

/-- `app.delete_book`: look the book up by primary key (404 when
absent), resolve its author, delete and commit the book, then — if the
author now owns no books — delete and commit the author as well.  When
the foreign key dangles, `book.author` is `None` and the later attribute
access raises after the book deletion was committed (`crashed`). -/
def delete_book (db : LibraryDB) (book_id : Nat) : DeleteOutcome :=
  match db.books.find? (fun b => b.id == book_id) with
  | none => DeleteOutcome.notFound
  | some book =>
    let db1 : LibraryDB := { db with books := db.books.filter (fun b => b.id != book.id) }
    match db.authors.find? (fun a => a.id == book.author_id) with
    | none => DeleteOutcome.crashed db1
    | some author =>
      let remaining := db1.books.filter (fun b => b.author_id == author.id)
      if remaining.isEmpty then
        DeleteOutcome.ok
          { db1 with authors := db1.authors.filter (fun a => a.id != author.id) }
      else DeleteOutcome.ok db1

/-! ## Character-class and table lemmas -/

lemma not_isPySpace_of_isAsciiLower {c : Char} (h : isAsciiLower c = true) :
    isPySpace c = false := by
  simp only [isAsciiLower, decide_eq_true_eq] at h
  simp only [isPySpace, decide_eq_false_iff_not]
  omega

lemma isWordChar_of_isAsciiLower {c : Char} (h : isAsciiLower c = true) :
    isWordChar c = true := by
  simp only [isAsciiLower, decide_eq_true_eq] at h
  simp only [isWordChar, decide_eq_true_eq]
  omega

lemma isPySpace_space : isPySpace (' ') = true := by decide

lemma isWordChar_space : isWordChar (' ') = false := by decide

lemma punctToSpace_ne_comma (c : Char) : punctToSpace c ≠ ',' := by
  unfold punctToSpace
  split
  · decide
  · rename_i h
    intro hc
    subst hc
    exact h (Or.inr (Or.inl (by decide)))

lemma punctToSpace_of_ws {c : Char} (h : isPySpace c = true) : punctToSpace c = c := by
  unfold punctToSpace
  rw [if_neg]
  simp only [isPySpace, decide_eq_true_eq] at h
  omega

lemma nfkdTable_vals : ∀ p ∈ nfkdTable, 192 ≤ p.1.toNat ∧ p.1.toNat ≤ 255 := by decide

lemma lowerTable_snd_ne_comma : ∀ p ∈ lowerTable, p.2 ≠ ',' := by decide

lemma nfkdStrip_of_ws {c : Char} (h : isPySpace c = true) : nfkdStrip c = [c] := by
  simp only [isPySpace, decide_eq_true_eq] at h
  unfold nfkdStrip
  rw [if_neg (by omega)]
  rw [List.find?_eq_none.mpr]
  intro p hp
  have hr := nfkdTable_vals p hp
  simp only [beq_iff_eq]
  intro he
  rw [he] at hr
  omega

lemma pyLower_ne_comma {c : Char} (h : c ≠ ',') : pyLower c ≠ ',' := by
  unfold pyLower
  cases hf : lowerTable.find? (fun p => p.1 == c) with
  | none => simpa using h
  | some p => simpa using lowerTable_snd_ne_comma p (List.mem_of_find?_eq_some hf)

/-! ## Structural lemmas about `collapseWS`, `dropTrailingWS`, `pyStrip` -/

lemma mem_collapseWS : ∀ (l : List Char) (c : Char), c ∈ collapseWS l →
    c = ' ' ∨ (c ∈ l ∧ isPySpace c = false)
  | [], c, h => by simp [collapseWS] at h
  | [d], c, h => by
    unfold collapseWS at h
    split at h
    · left
      simpa using h
    · right
      rename_i hws
      simp only [List.mem_singleton] at h
      subst h
      exact ⟨List.mem_singleton_self c, by simpa using hws⟩
  | a :: b :: r, c, h => by
    unfold collapseWS at h
    split at h
    · rcases mem_collapseWS (b :: r) c h with h1 | ⟨h2, h3⟩
      · exact Or.inl h1
      · exact Or.inr ⟨List.mem_cons_of_mem a h2, h3⟩
    · rcases List.mem_cons.mp h with h1 | h2
      · by_cases hws : isPySpace a = true
        · rw [if_pos hws] at h1
          exact Or.inl h1
        · rw [if_neg hws] at h1
          rw [h1]
          exact Or.inr ⟨List.mem_cons_self a (b :: r), by simpa using hws⟩
      · rcases mem_collapseWS (b :: r) c h2 with h1 | ⟨h3, h4⟩
        · exact Or.inl h1
        · exact Or.inr ⟨List.mem_cons_of_mem a h3, h4⟩

lemma collapseWS_cons_nonws (d : Char) (r : List Char) (h : isPySpace d = false) :
    ∃ t, collapseWS (d :: r) = d :: t := by
  cases r with
  | nil => exact ⟨[], by simp [collapseWS, h]⟩
  | cons e r2 => exact ⟨collapseWS (e :: r2), by simp [collapseWS, h]⟩

/-- No two adjacent whitespace characters. -/
def noAdjWS : List Char → Bool
  | [] => true
  | [_] => true
  | c :: d :: r => (!(isPySpace c && isPySpace d)) && noAdjWS (d :: r)

lemma noAdjWS_of_cons {c : Char} {l : List Char} (h : noAdjWS (c :: l) = true) :
    noAdjWS l = true := by
  cases l with
  | nil => rfl
  | cons d r =>
    unfold noAdjWS at h
    simp only [Bool.and_eq_true] at h
    exact h.2

lemma noAdjWS_cons_pair {c : Char} {l : List Char} (hl : noAdjWS l = true)
    (hc : ∀ d t, l = d :: t → (isPySpace c && isPySpace d) = false) :
    noAdjWS (c :: l) = true := by
  cases l with
  | nil => rfl
  | cons d r =>
    unfold noAdjWS
    simp only [Bool.and_eq_true]
    refine ⟨?_, hl⟩
    rw [hc d r rfl]
    rfl

lemma noAdjWS_collapseWS : ∀ l : List Char, noAdjWS (collapseWS l) = true
  | [] => rfl
  | [d] => by
    unfold collapseWS
    split <;> rfl
  | a :: b :: r => by
    unfold collapseWS
    split
    · exact noAdjWS_collapseWS (b :: r)
    · rename_i hab
      refine noAdjWS_cons_pair (noAdjWS_collapseWS (b :: r)) ?_
      intro d t hdt
      by_cases hb : isPySpace b = true
      · have ha : isPySpace a = false := by
          cases hha : isPySpace a with
          | false => rfl
          | true => exact absurd (by rw [hha, hb]; rfl) hab
        rw [if_neg (by simp [ha]), ha]
        rfl
      · have hbf : isPySpace b = false := by simpa using hb
        obtain ⟨t2, ht2⟩ := collapseWS_cons_nonws b r hbf
        rw [ht2] at hdt
        injection hdt with hd ht
        rw [← hd, hbf, Bool.and_false]

lemma mem_dropTrailingWS : ∀ (l : List Char) (c : Char), c ∈ dropTrailingWS l → c ∈ l
  | [], c, h => by simp [dropTrailingWS] at h
  | a :: r, c, h => by
    unfold dropTrailingWS at h
    cases hi : dropTrailingWS r with
    | nil =>
      rw [hi] at h
      by_cases hws : isPySpace a = true
      · rw [if_pos hws] at h
        simp at h
      · rw [if_neg hws] at h
        simp only [List.mem_singleton] at h
        rw [h]
        exact List.mem_cons_self a r
    | cons d t =>
      rw [hi] at h
      rcases List.mem_cons.mp h with h1 | h2
      · rw [h1]
        exact List.mem_cons_self a r
      · exact List.mem_cons_of_mem a (mem_dropTrailingWS r c (by rw [hi]; exact h2))

lemma dropTrailingWS_shape (a : Char) (r : List Char) :
    dropTrailingWS (a :: r) = [] ∨ ∃ t, dropTrailingWS (a :: r) = a :: t := by
  unfold dropTrailingWS
  cases dropTrailingWS r with
  | nil =>
    by_cases hws : isPySpace a = true
    · exact Or.inl (by rw [if_pos hws])
    · exact Or.inr ⟨[], by rw [if_neg hws]⟩
  | cons d t => exact Or.inr ⟨d :: t, rfl⟩

lemma getLast?_dropTrailingWS : ∀ (l : List Char) (x : Char),
    (dropTrailingWS l).getLast? = some x → isPySpace x = false
  | [], x, h => by simp [dropTrailingWS] at h
  | a :: r, x, h => by
    unfold dropTrailingWS at h
    cases hi : dropTrailingWS r with
    | nil =>
      rw [hi] at h
      by_cases hws : isPySpace a = true
      · rw [if_pos hws] at h
        simp at h
      · rw [if_neg hws] at h
        have hax : a = x := by
          have : ([a] : List Char).getLast? = some a := rfl
          rw [this] at h
          exact Option.some.inj h
        rw [← hax]
        simpa using hws
    | cons d t =>
      rw [hi] at h
      rw [List.getLast?_cons_cons] at h
      exact getLast?_dropTrailingWS r x (by rw [hi]; exact h)

lemma noAdjWS_dropTrailingWS : ∀ l : List Char,
    noAdjWS l = true → noAdjWS (dropTrailingWS l) = true
  | [], _ => rfl
  | a :: r, h => by
    unfold dropTrailingWS
    cases hi : dropTrailingWS r with
    | nil =>
      by_cases hws : isPySpace a = true
      · rw [if_pos hws]
        rfl
      · rw [if_neg hws]
        rfl
    | cons d t =>
      have hr : noAdjWS (d :: t) = true := by
        rw [← hi]
        exact noAdjWS_dropTrailingWS r (noAdjWS_of_cons h)
      refine noAdjWS_cons_pair hr ?_
      intro e u heu
      injection heu with h1 h2
      rw [← h1]
      cases r with
      | nil => simp [dropTrailingWS] at hi
      | cons b r2 =>
        rcases dropTrailingWS_shape b r2 with hsh | ⟨t2, hsh⟩
        · rw [hsh] at hi
          cases hi
        · rw [hsh] at hi
          injection hi with h3 h4
          rw [← h3]
          unfold noAdjWS at h
          simp only [Bool.and_eq_true] at h
          have h5 := h.1
          cases hq : (isPySpace a && isPySpace b) with
          | false => rfl
          | true =>
            rw [hq] at h5
            exact absurd h5 (by decide)

lemma noAdjWS_dropWhileWS (l : List Char) (hl : noAdjWS l = true) :
    noAdjWS (l.dropWhile isPySpace) = true := by
  induction l with
  | nil => exact hl
  | cons a r ih =>
    rw [List.dropWhile_cons]
    split
    · exact ih (noAdjWS_of_cons hl)
    · exact hl

lemma noAdjWS_pyStrip (l : List Char) (hl : noAdjWS l = true) :
    noAdjWS (pyStrip l) = true :=
  noAdjWS_dropTrailingWS _ (noAdjWS_dropWhileWS l hl)

lemma mem_dropWhileWS (l : List Char) (c : Char) (h : c ∈ l.dropWhile isPySpace) :
    c ∈ l := by
  induction l with
  | nil => simp at h
  | cons a r ih =>
    rw [List.dropWhile_cons] at h
    split at h
    · exact List.mem_cons_of_mem a (ih h)
    · exact h

lemma mem_pyStrip (l : List Char) (c : Char) (h : c ∈ pyStrip l) : c ∈ l :=
  mem_dropWhileWS l c (mem_dropTrailingWS _ c h)

/-! ## The canonical shape of `stageFinal` output -/

/-- The first character, if any, is not whitespace. -/
def headNotWS : List Char → Bool
  | [] => true
  | c :: _ => !isPySpace c

/-- The last character, if any, is not whitespace. -/
def lastNotWS : List Char → Bool
  | [] => true
  | [c] => !isPySpace c
  | _ :: d :: t => lastNotWS (d :: t)

/-- Canonical output shape: only lowercase ASCII letters and single
spaces, no two adjacent spaces, no leading or trailing space. -/
def isCanon (l : List Char) : Bool :=
  l.all (fun c => isAsciiLower c || c == ' ') && noAdjWS l && headNotWS l && lastNotWS l

/-- Unfolding equation for `dropTrailingWS` on a cons cell. -/
lemma dropTrailingWS_cons (a : Char) (r : List Char) :
    dropTrailingWS (a :: r) =
      match dropTrailingWS r with
      | [] => if isPySpace a then [] else [a]
      | d :: t => a :: d :: t := rfl

lemma dropWhileWS_head_false : ∀ (l : List Char) (a : Char) (r : List Char),
    l.dropWhile isPySpace = a :: r → isPySpace a = false
  | [], a, r, h => by simp at h
  | b :: l2, a, r, h => by
    rw [List.dropWhile_cons] at h
    split at h
    · exact dropWhileWS_head_false l2 a r h
    · rename_i hb
      injection h with h1 h2
      rw [← h1]
      simpa using hb

lemma headNotWS_pyStrip (l : List Char) : headNotWS (pyStrip l) = true := by
  unfold pyStrip
  cases hd : l.dropWhile isPySpace with
  | nil => rfl
  | cons a r =>
    have ha : isPySpace a = false := dropWhileWS_head_false l a r hd
    rcases dropTrailingWS_shape a r with hsh | ⟨t, hsh⟩
    · rw [hsh]
      rfl
    · rw [hsh]
      show (!isPySpace a) = true
      rw [ha]
      rfl

lemma lastNotWS_dropTrailingWS : ∀ l : List Char, lastNotWS (dropTrailingWS l) = true
  | [] => rfl
  | a :: r => by
    rw [dropTrailingWS_cons]
    cases hi : dropTrailingWS r with
    | nil =>
      by_cases hws : isPySpace a = true
      · rw [if_pos hws]
        rfl
      · rw [if_neg hws]
        unfold lastNotWS
        simp [hws]
    | cons d t =>
      have hr := lastNotWS_dropTrailingWS r
      rw [hi] at hr
      exact hr

lemma lastNotWS_pyStrip (l : List Char) : lastNotWS (pyStrip l) = true :=
  lastNotWS_dropTrailingWS _

lemma isCanon_stageFinal (s : List Char) : isCanon (stageFinal s) = true := by
  unfold isCanon
  simp only [Bool.and_eq_true]
  refine ⟨⟨⟨?_, ?_⟩, ?_⟩, ?_⟩
  · rw [List.all_eq_true]
    intro c hc
    unfold stageFinal at hc
    have h1 : c ∈ collapseWS ((s.filter keepChar)) := mem_pyStrip _ c hc
    rcases mem_collapseWS _ c h1 with h2 | ⟨h3, h4⟩
    · rw [h2]
      decide
    · have h6 : keepChar c = true := (List.mem_filter.mp h3).2
      unfold keepChar at h6
      simp only [Bool.or_eq_true] at h6
      rcases h6 with h7 | h7
      · rw [h7]
        rfl
      · rw [h7] at h4
        cases h4
  · exact noAdjWS_pyStrip _ (noAdjWS_collapseWS _)
  · exact headNotWS_pyStrip _
  · exact lastNotWS_pyStrip _

/-! ## `stageFinal` is the identity on canonical strings -/

lemma collapseWS_eq_self : ∀ l : List Char,
    (∀ c ∈ l, isPySpace c = true → c = ' ') → noAdjWS l = true → collapseWS l = l
  | [], _, _ => rfl
  | [c], h, _ => by
    unfold collapseWS
    by_cases hws : isPySpace c = true
    · rw [if_pos hws, h c (List.mem_singleton_self c) hws]
    · rw [if_neg hws]
  | a :: b :: r, h, hadj => by
    unfold collapseWS
    have hab : (isPySpace a && isPySpace b) = false := by
      unfold noAdjWS at hadj
      simp only [Bool.and_eq_true] at hadj
      have h5 := hadj.1
      cases hq : (isPySpace a && isPySpace b) with
      | false => rfl
      | true =>
        rw [hq] at h5
        exact absurd h5 (by decide)
    rw [if_neg (by simp [hab])]
    have htl : collapseWS (b :: r) = b :: r :=
      collapseWS_eq_self (b :: r) (fun c hc hw => h c (List.mem_cons_of_mem a hc) hw)
        (noAdjWS_of_cons hadj)
    rw [htl]
    by_cases hws : isPySpace a = true
    · rw [if_pos hws, h a (List.mem_cons_self a (b :: r)) hws]
    · rw [if_neg hws]

lemma dropWhileWS_eq_self (l : List Char) (h : headNotWS l = true) :
    l.dropWhile isPySpace = l := by
  cases l with
  | nil => rfl
  | cons a r =>
    have h2 : (!isPySpace a) = true := h
    have ha : isPySpace a = false := by
      cases hq : isPySpace a with
      | false => rfl
      | true =>
        rw [hq] at h2
        exact absurd h2 (by decide)
    rw [List.dropWhile_cons, if_neg (by simp [ha])]

lemma dropTrailingWS_eq_self : ∀ l : List Char, lastNotWS l = true → dropTrailingWS l = l
  | [], _ => rfl
  | [a], h => by
    have h2 : (!isPySpace a) = true := h
    have ha : isPySpace a = false := by
      cases hq : isPySpace a with
      | false => rfl
      | true =>
        rw [hq] at h2
        exact absurd h2 (by decide)
    rw [dropTrailingWS_cons]
    show (if isPySpace a then [] else [a]) = [a]
    rw [if_neg (by simp [ha])]
  | a :: b :: r, h => by
    have hr : dropTrailingWS (b :: r) = b :: r := dropTrailingWS_eq_self (b :: r) h
    rw [dropTrailingWS_cons, hr]

lemma pyStrip_eq_self (l : List Char) (h1 : headNotWS l = true) (h2 : lastNotWS l = true) :
    pyStrip l = l := by
  unfold pyStrip
  rw [dropWhileWS_eq_self l h1, dropTrailingWS_eq_self l h2]

lemma filter_keep_eq_self (l : List Char)
    (h : ∀ c ∈ l, (isAsciiLower c || c == ' ') = true) : l.filter keepChar = l := by
  rw [List.filter_eq_self]
  intro c hc
  unfold keepChar
  have hor := h c hc
  simp only [Bool.or_eq_true] at hor
  rcases hor with h1 | h1
  · rw [h1]
    rfl
  · rw [Bool.or_eq_true]
    right
    have : c = ' ' := by simpa using h1
    rw [this]
    decide

lemma stageFinal_of_isCanon (l : List Char) (h : isCanon l = true) : stageFinal l = l := by
  unfold isCanon at h
  simp only [Bool.and_eq_true] at h
  obtain ⟨⟨⟨hall, hadj⟩, hhead⟩, hlast⟩ := h
  rw [List.all_eq_true] at hall
  unfold stageFinal
  rw [filter_keep_eq_self l hall]
  have hws : ∀ c ∈ l, isPySpace c = true → c = ' ' := by
    intro c hc hw
    have hor := hall c hc
    simp only [Bool.or_eq_true] at hor
    rcases hor with h1 | h1
    · rw [not_isPySpace_of_isAsciiLower h1] at hw
      cases hw
    · simpa using h1
  rw [collapseWS_eq_self l hws hadj]
  exact pyStrip_eq_self l hhead hlast

/-! ## The comma can never survive the punctuation-replacement stage -/

lemma not_comma_mem_stagePunct (x : List Char) : ¬ (',' ∈ stagePunct x) := by
  unfold stagePunct
  intro h
  rcases List.mem_map.mp h with ⟨c, _, he⟩
  exact punctToSpace_ne_comma c he

lemma noComma_stageCollapseLower (x : List Char) (hx : ¬ (',' ∈ x)) :
    ¬ (',' ∈ stageCollapseLower x) := by
  unfold stageCollapseLower
  intro h
  rcases List.mem_map.mp h with ⟨d, hd, he⟩
  have hd2 : d ∈ collapseWS x := mem_pyStrip _ d hd
  rcases mem_collapseWS _ d hd2 with h1 | ⟨h3, _⟩
  · rw [h1] at he
    exact absurd he (by decide)
  · have hne : d ≠ ',' := fun hh => hx (hh ▸ h3)
    exact pyLower_ne_comma hne he

lemma noComma_pipeline (s : List Char) :
    ¬ (',' ∈ stageCollapseLower (stagePunct (stageNFKD s))) :=
  noComma_stageCollapseLower _ (not_comma_mem_stagePunct _)

lemma stageReorder_of_noComma {l : List Char} (h : ¬ (',' ∈ l)) : stageReorder l = l := by
  unfold stageReorder
  rw [if_neg h]

/-! ## The initials merge is the identity on letterless strings -/

lemma mergeInitialsF_no_lower : ∀ (fuel : Nat) (prev : Option Char) (l : List Char),
    (∀ c ∈ l, isAsciiLower c = false) → mergeInitialsF fuel prev l = l
  | 0, _, _, _ => rfl
  | _ + 1, _, [], _ => rfl
  | fuel + 1, prev, c :: rest, h => by
    have hc0 : isAsciiLower c = false := h c (List.mem_cons_self c rest)
    unfold mergeInitialsF
    rw [hc0, Bool.and_false, if_neg (by decide)]
    rw [mergeInitialsF_no_lower fuel (some c) rest
      (fun d hd => h d (List.mem_cons_of_mem c hd))]

lemma mergeInitials_no_lower (l : List Char) (h : ∀ c ∈ l, isAsciiLower c = false) :
    mergeInitials l = l := mergeInitialsF_no_lower _ none l h

/-! ## Whitespace-only strings normalize to the empty string -/

lemma pyStrip_collapseWS_all_ws : ∀ l : List Char, (∀ c ∈ l, isPySpace c = true) →
    pyStrip (collapseWS l) = []
  | [], _ => rfl
  | [c], h => by
    unfold collapseWS
    rw [if_pos (h c (List.mem_singleton_self c))]
    rfl
  | a :: b :: r, h => by
    unfold collapseWS
    rw [if_pos]
    · exact pyStrip_collapseWS_all_ws (b :: r) (fun c hc => h c (List.mem_cons_of_mem a hc))
    · rw [h a (List.mem_cons_self a (b :: r)),
        h b (List.mem_cons_of_mem a (List.mem_cons_self b r))]
      rfl

lemma stageNFKD_of_ws (s : List Char) (h : ∀ c ∈ s, isPySpace c = true) :
    stageNFKD s = s := by
  induction s with
  | nil => rfl
  | cons c r ih =>
    unfold stageNFKD
    rw [nfkdStrip_of_ws (h c (List.mem_cons_self c r)),
      ih (fun d hd => h d (List.mem_cons_of_mem c hd))]
    rfl

lemma stagePunct_of_ws (s : List Char) (h : ∀ c ∈ s, isPySpace c = true) :
    stagePunct s = s := by
  unfold stagePunct
  induction s with
  | nil => rfl
  | cons c r ih =>
    rw [List.map_cons, punctToSpace_of_ws (h c (List.mem_cons_self c r)),
      ih (fun d hd => h d (List.mem_cons_of_mem c hd))]

/-! ## Letterless strings normalize to the empty string -/

/-- A character none of whose decomposed forms lower-cases to an ASCII
letter: such characters can contribute no letter to the normalized key. -/
def yieldsNoLetter (c : Char) : Bool :=
  (nfkdStrip c).all (fun d => !isAsciiLower (pyLower d))

lemma all_no_lower_stageNFKD (s : List Char) (h : ∀ c ∈ s, yieldsNoLetter c = true) :
    ∀ d ∈ stageNFKD s, isAsciiLower (pyLower d) = false := by
  induction s with
  | nil =>
    intro d hd
    simp [stageNFKD] at hd
  | cons c r ih =>
    intro d hd
    unfold stageNFKD at hd
    rcases List.mem_append.mp hd with h1 | h2
    · have hy := h c (List.mem_cons_self c r)
      unfold yieldsNoLetter at hy
      rw [List.all_eq_true] at hy
      have h3 := hy d h1
      cases hq : isAsciiLower (pyLower d) with
      | false => rfl
      | true =>
        rw [hq] at h3
        exact absurd h3 (by decide)
    · exact ih (fun e he => h e (List.mem_cons_of_mem c he)) d h2

lemma no_lower_punct {d : Char} (h : isAsciiLower (pyLower d) = false) :
    isAsciiLower (pyLower (punctToSpace d)) = false := by
  unfold punctToSpace
  split
  · decide
  · exact h

lemma all_no_lower_stageCollapseLower (x : List Char)
    (h : ∀ d ∈ x, isAsciiLower (pyLower d) = false) :
    ∀ e ∈ stageCollapseLower x, isAsciiLower e = false := by
  intro e he
  unfold stageCollapseLower at he
  rcases List.mem_map.mp he with ⟨d, hd, hde⟩
  have hd2 : d ∈ collapseWS x := mem_pyStrip _ d hd
  rcases mem_collapseWS _ d hd2 with h1 | ⟨h3, _⟩
  · rw [← hde, h1]
    decide
  · rw [← hde]
    exact h d h3

lemma stageFinal_no_lower (l : List Char) (h : ∀ c ∈ l, isAsciiLower c = false) :
    stageFinal l = [] := by
  unfold stageFinal
  have hf : ∀ c ∈ l.filter keepChar, isPySpace c = true := by
    intro c hc
    have h5 := List.mem_filter.mp hc
    have h6 : keepChar c = true := h5.2
    unfold keepChar at h6
    simp only [Bool.or_eq_true] at h6
    rcases h6 with h7 | h7
    · rw [h c h5.1] at h7
      cases h7
    · exact h7
  exact pyStrip_collapseWS_all_ws _ hf

/-! ## One pass of the initials merge on three single-letter tokens -/

lemma mergeInitialsF_triple (x y z : Char) (hx : isAsciiLower x = true)
    (hy : isAsciiLower y = true) (hz : isAsciiLower z = true) (n : Nat) :
    mergeInitialsF (n + 4) none [x, ' ', y, ' ', z] = [x, y, ' ', z] := by
  have hwy : isWordChar y = true := isWordChar_of_isAsciiLower hy
  have hsy : isPySpace y = false := not_isPySpace_of_isAsciiLower hy
  have hmt : matchTail [' ', y, ' ', z] = some (y, [' ', z]) := by
    simp [matchTail, List.takeWhile_cons, List.dropWhile_cons, isPySpace_space, hsy,
      hy, wordBoundaryAfter, isWordChar_space]
  have step4 : mergeInitialsF (n + 1) (some z) ([] : List Char) = [] := by
    simp [mergeInitialsF]
  have step3 : mergeInitialsF (n + 2) (some ' ') [z] = [z] := by
    rw [show n + 2 = (n + 1) + 1 from rfl]
    unfold mergeInitialsF
    simp [atBoundary, isWordChar_space, hz, matchTail, step4]
  have step2 : mergeInitialsF (n + 3) (some y) [' ', z] = [' ', z] := by
    rw [show n + 3 = (n + 2) + 1 from rfl]
    unfold mergeInitialsF
    simp [atBoundary, hwy, step3]
  rw [show n + 4 = (n + 3) + 1 from rfl]
  unfold mergeInitialsF
  simp [atBoundary, hx, hmt, step2]

/-! ## Claim theorems for the normalizer -/

/-- Claim C4: after the punctuation-replacement substitution (which maps
periods, commas and apostrophes to spaces) the intermediate string
contains no comma, so the guard of the reorder branch is false for every
input and `normalize_name` never reorders any name. -/
theorem comma_branch_dead (s : List Char) :
    ¬ (',' ∈ stagePunct (stageNFKD s)) ∧
    ¬ (',' ∈ stageCollapseLower (stagePunct (stageNFKD s))) ∧
    stageReorder (stageCollapseLower (stagePunct (stageNFKD s))) =
      stageCollapseLower (stagePunct (stageNFKD s)) :=
  ⟨not_comma_mem_stagePunct _, noComma_pipeline s,
    stageReorder_of_noComma (noComma_pipeline s)⟩

/-- Claim C3 (code-bug evaluation): contrary to the specified
comma-reorder behavior, `normalize_name "Rowling, J. K."` evaluates to
`"rowling jk"`, not `"jk rowling"`: the comma was already replaced by a
space before the reorder guard runs. -/
theorem normalize_comma_input_not_reordered :
    normalize_name (("Rowling, J. K.").data) = ("rowling jk").data := by decide

/-- Claim C5: the initials merge is a single non-overlapping
left-to-right pass, so on three consecutive single-letter tokens only
the first pair merges: `[x, ' ', y, ' ', z]` becomes `[x, y, ' ', z]`,
"a b c" becomes "ab c" (not "ab bc" or "abc") and "j k rowling" becomes
"jk rowling". -/
theorem merge_initials_single_pass :
    (∀ x y z : Char, isAsciiLower x = true → isAsciiLower y = true →
      isAsciiLower z = true → mergeInitials [x, ' ', y, ' ', z] = [x, y, ' ', z]) ∧
    mergeInitials (("a b c").data) = ("ab c").data ∧
    mergeInitials (("j k rowling").data) = ("jk rowling").data := by
  refine ⟨?_, by decide, by decide⟩
  intro x y z hx hy hz
  exact mergeInitialsF_triple x y z hx hy hz 2

/-- Witness for C5 at the concrete letters a, b, c. -/
theorem merge_initials_single_pass_witness :
    isAsciiLower ('a') = true ∧ isAsciiLower ('b') = true ∧ isAsciiLower ('c') = true ∧
    mergeInitials ['a', ' ', 'b', ' ', 'c'] = ['a', 'b', ' ', 'c'] :=
  ⟨by decide, by decide, by decide,
    merge_initials_single_pass.1 ('a') ('b') ('c') (by decide) (by decide) (by decide)⟩

/-- Claim C6: the three concrete test vectors of the specification. -/
theorem normalize_test_vectors :
    normalize_name (("J.K. Rowling").data) = ("jk rowling").data ∧
    normalize_name (("Émile Zola").data) = ("emile zola").data ∧
    normalize_name (("  Harper   Lee  ").data) = ("harper lee").data :=
  ⟨by decide, by decide, by decide⟩

/-- Claim C7 counterexample: `normalize_name` is not idempotent.  For
the input "5a 7b" the first pass yields "a b" (the digits are stripped
only after the merge step), and a second pass merges the two now-exposed
single-letter tokens into "ab". -/
theorem normalize_not_idempotent :
    normalize_name (normalize_name (("5a 7b").data)) ≠
      normalize_name (("5a 7b").data) := by decide

/-- Claim C7 amended: idempotence does hold on each of the spec's tested
inputs. -/
theorem normalize_idempotent_on_tested :
    normalize_name (normalize_name (("").data)) = normalize_name (("").data) ∧
    normalize_name (normalize_name (("J.K. Rowling").data)) =
      normalize_name (("J.K. Rowling").data) ∧
    normalize_name (normalize_name (("Rowling, J. K.").data)) =
      normalize_name (("Rowling, J. K.").data) ∧
    normalize_name (normalize_name (("George Orwell").data)) =
      normalize_name (("George Orwell").data) ∧
    normalize_name (normalize_name (("Émile Zola").data)) =
      normalize_name (("Émile Zola").data) ∧
    normalize_name (normalize_name (("  Harper   Lee  ").data)) =
      normalize_name (("  Harper   Lee  ").data) :=
  ⟨by decide, by decide, by decide, by decide, by decide, by decide⟩

/-- Claim C8: `normalize_name` is a total function; the empty string,
whitespace-only strings and letterless strings all normalize to the
empty string. -/
theorem normalize_total_empty_cases :
    normalize_name [] = [] ∧
    (∀ s : List Char, (∀ c ∈ s, isPySpace c = true) → normalize_name s = []) ∧
    (∀ s : List Char, (∀ c ∈ s, yieldsNoLetter c = true) → normalize_name s = []) := by
  refine ⟨rfl, ?_, ?_⟩
  · intro s hs
    cases s with
    | nil => rfl
    | cons a r =>
      unfold normalize_name
      rw [if_neg (by simp)]
      rw [stageNFKD_of_ws (a :: r) hs, stagePunct_of_ws (a :: r) hs]
      unfold stageCollapseLower
      rw [pyStrip_collapseWS_all_ws (a :: r) hs]
      rfl
  · intro s hs
    cases s with
    | nil => rfl
    | cons a r =>
      unfold normalize_name
      rw [if_neg (by simp)]
      have h1 := all_no_lower_stageNFKD (a :: r) hs
      have h2 : ∀ d ∈ stagePunct (stageNFKD (a :: r)),
          isAsciiLower (pyLower d) = false := by
        intro d hd
        unfold stagePunct at hd
        rcases List.mem_map.mp hd with ⟨e, he, hde⟩
        rw [← hde]
        exact no_lower_punct (h1 e he)
      have h3 := all_no_lower_stageCollapseLower _ h2
      rw [stageReorder_of_noComma (noComma_pipeline (a :: r)),
        mergeInitials_no_lower _ h3]
      exact stageFinal_no_lower _ h3

/-- Witness for C8 at a whitespace-only and at a letterless input. -/
theorem normalize_total_empty_cases_witness :
    (∀ c ∈ ("  ").data, isPySpace c = true) ∧ normalize_name (("  ").data) = [] ∧
    (∀ c ∈ ("123 !?").data, yieldsNoLetter c = true) ∧
    normalize_name (("123 !?").data) = [] :=
  ⟨by decide, normalize_total_empty_cases.2.1 _ (by decide), by decide,
    normalize_total_empty_cases.2.2 _ (by decide)⟩

/-- Claim C10: the output of `normalize_name` is either empty or
consists solely of lowercase ASCII letters and single spaces, with no
two adjacent spaces and no leading or trailing space, and it is a fixed
point of the final strip-and-collapse steps. -/
theorem normalize_canonical_output (s : List Char) :
    isCanon (normalize_name s) = true ∧
    stageFinal (normalize_name s) = normalize_name s := by
  unfold normalize_name
  by_cases he : s.isEmpty = true
  · rw [if_pos he]
    exact ⟨rfl, rfl⟩
  · rw [if_neg he]
    exact ⟨isCanon_stageFinal _, stageFinal_of_isCanon _ (isCanon_stageFinal _)⟩
example : normalizeName ("Rowling, J. K.") = ("rowling jk") := by decide
example : normalizeName ("George Orwell") = ("george orwell") := by decide
example : normalizeName ("Émile Zola") = ("emile zola") := by decide
example : normalizeName ("  Harper   Lee  ") = ("harper lee") := by decide
example : normalizeName ("5a 7b") = ("a b") := by decide
example : normalizeName ("a b") = ("ab") := by decide
example : normalizeName ("a b c") = ("ab c") := by decide

/-! ## Claim theorems for the application operations -/

/-- Claim C1 (code-bug evaluation): `add_author` performs no
normalization lookup and never assigns `normalized_name`, and its commit
is wrapped in no handler.  Hence no POST can ever insert an author — the
outcome `added` is unreachable — and a valid POST with a non-empty name
ends in an uncaught `IntegrityError` (the NOT NULL constraint on
`normalized_name` is violated) instead of a duplicate-author condition. -/
theorem add_author_uncaught_violation :
    (∀ (db : LibraryDB) (nf bf df : List Char) (db2 : LibraryDB),
      add_author db nf bf df ≠ AddAuthorOutcome.added db2) ∧
    add_author ⟨[], []⟩ (("George Orwell").data) [] [] =
      AddAuthorOutcome.uncaughtIntegrityError := by
  constructor
  · intro db nf bf df db2 h
    simp only [add_author] at h
    split at h
    · exact AddAuthorOutcome.noConfusion h
    · split at h
      · exact AddAuthorOutcome.noConfusion h
      · exact AddAuthorOutcome.noConfusion h
  · decide

/-- Claim C2 (code-bug evaluation): the author record `add_author`
builds never carries the canonical key — `normalized_name` is left
unassigned — so the claimed invariant `normalized_name =
normalize_name name` fails on every record the operation submits; in
particular the "George Orwell" record violates it although
`normalize_name` would give "george orwell". -/
theorem add_author_record_breaks_invariant :
    (∀ (i : Nat) (n : List Char) (b d : Option PyDate),
      (authorFromForm i n b d).normalized_name ≠ some (normalize_name n)) ∧
    ¬ authorsInvariant [authorFromForm 1 (("George Orwell").data) none none] ∧
    normalize_name (("George Orwell").data) = ("george orwell").data := by
  refine ⟨?_, ?_, by decide⟩
  · intro i n b d h
    exact Option.noConfusion h
  · intro hinv
    have h := hinv.1 (authorFromForm 1 (("George Orwell").data) none none)
      (List.mem_singleton_self _)
    exact Option.noConfusion h

/-- `find?` by a key returns the unique element with that key when the
keys are distinct. -/
lemma find?_key_of_nodup {α : Type} (key : α → Nat) (k : Nat) :
    ∀ (l : List α) (x : α), (l.map key).Nodup → x ∈ l → key x = k →
      l.find? (fun y => key y == k) = some x
  | [], x, _, hx, _ => by simp at hx
  | a :: t, x, hnd, hx, hk => by
    rw [List.map_cons, List.nodup_cons] at hnd
    by_cases hap : (key a == k) = true
    · have hfa : List.find? (fun y => key y == k) (a :: t) = some a := by
        simp only [List.find?, hap]
      rw [hfa]
      rcases List.mem_cons.mp hx with h1 | h2
      · rw [h1]
      · exfalso
        have hka : key a = k := by simpa using hap
        have hmem : key x ∈ t.map key := List.mem_map_of_mem key h2
        rw [hk, ← hka] at hmem
        exact hnd.1 hmem
    · have hap2 : (key a == k) = false := by simpa using hap
      have hfa : List.find? (fun y => key y == k) (a :: t) =
          List.find? (fun y => key y == k) t := by
        simp only [List.find?, hap2]
      rw [hfa]
      rcases List.mem_cons.mp hx with h1 | h2
      · exfalso
        exact hap (by rw [← h1]; exact beq_iff_eq.mpr hk)
      · exact find?_key_of_nodup key k t x hnd.2 h2 hk

/-- Claim C9: for an existing book id (with well-formed primary and
foreign keys) `delete_book` removes exactly that book; it removes the
owning author exactly when no book of that author remains, and leaves
the author table untouched when one does. -/
theorem delete_book_spec (db : LibraryDB) (bid : Nat) (book : BookRec)
    (author : AuthorRec)
    (hbnd : (db.books.map BookRec.id).Nodup)
    (hand : (db.authors.map AuthorRec.id).Nodup)
    (hb : book ∈ db.books) (hbid : book.id = bid)
    (ha : author ∈ db.authors) (haid : author.id = book.author_id) :
    ∃ db2, delete_book db bid = DeleteOutcome.ok db2 ∧
      db2.books = db.books.filter (fun b => b.id != bid) ∧
      ((∀ b ∈ db2.books, b.author_id ≠ author.id) →
        db2.authors = db.authors.filter (fun a => a.id != author.id)) ∧
      ((∃ b ∈ db2.books, b.author_id = author.id) → db2.authors = db.authors) := by
  subst hbid
  have hf1 : db.books.find? (fun b => b.id == book.id) = some book :=
    find?_key_of_nodup BookRec.id book.id db.books book hbnd hb rfl
  have hf2 : db.authors.find? (fun a => a.id == book.author_id) = some author :=
    find?_key_of_nodup AuthorRec.id book.author_id db.authors author hand ha haid
  have hstep1 : delete_book db book.id =
      (match db.authors.find? (fun a => a.id == book.author_id) with
       | none => DeleteOutcome.crashed
           { authors := db.authors, books := db.books.filter (fun b => b.id != book.id) }
       | some author2 =>
         if ((db.books.filter (fun b => b.id != book.id)).filter
             (fun b => b.author_id == author2.id)).isEmpty then
           DeleteOutcome.ok
             { authors := db.authors.filter (fun a => a.id != author2.id),
               books := db.books.filter (fun b => b.id != book.id) }
         else
           DeleteOutcome.ok
             { authors := db.authors,
               books := db.books.filter (fun b => b.id != book.id) }) := by
    unfold delete_book
    rw [hf1]
  have hval : delete_book db book.id =
      (if ((db.books.filter (fun b => b.id != book.id)).filter
            (fun b => b.author_id == author.id)).isEmpty then
        DeleteOutcome.ok
          { authors := db.authors.filter (fun a => a.id != author.id),
            books := db.books.filter (fun b => b.id != book.id) }
      else
        DeleteOutcome.ok
          { authors := db.authors,
            books := db.books.filter (fun b => b.id != book.id) }) := by
    rw [hstep1, hf2]
  by_cases hemp : ((db.books.filter (fun b => b.id != book.id)).filter
      (fun b => b.author_id == author.id)).isEmpty = true
  · refine ⟨LibraryDB.mk (db.authors.filter (fun a => a.id != author.id))
        (db.books.filter (fun b => b.id != book.id)),
      by rw [hval, if_pos hemp], rfl, fun _ => rfl, ?_⟩
    intro hex
    exfalso
    rcases hex with ⟨b, hb2, hba⟩
    have h0 := (List.filter_eq_nil_iff.mp (List.isEmpty_iff.mp hemp)) b hb2
    exact h0 (beq_iff_eq.mpr hba)
  · refine ⟨LibraryDB.mk db.authors (db.books.filter (fun b => b.id != book.id)),
      by rw [hval, if_neg hemp], rfl, ?_, fun _ => rfl⟩
    intro hall
    exfalso
    have hne : (db.books.filter (fun b => b.id != book.id)).filter
        (fun b => b.author_id == author.id) ≠ [] := by
      intro h0
      exact hemp (by rw [h0]; rfl)
    rcases List.exists_mem_of_ne_nil _ hne with ⟨b, hbmem⟩
    have h5 := List.mem_filter.mp hbmem
    exact hall b h5.1 (by simpa using h5.2)

/-- Concrete store for the delete-book witness: one author owning two
books, book 1 is deleted, the author keeps book 2 and stays. -/
def authorW : AuthorRec :=
  { id := 1, name := ("Harper Lee").data,
    normalized_name := some (("harper lee").data),
    birth_date := none, date_of_death := none }

def bookW1 : BookRec :=
  { id := 1, isbn := ("9780061120084").data, title := ("To Kill a Mockingbird").data,
    publication_year := some 1960, author_id := 1 }

def bookW2 : BookRec :=
  { id := 2, isbn := ("9780060935467").data, title := ("Go Set a Watchman").data,
    publication_year := some 2015, author_id := 1 }

def dbW : LibraryDB := { authors := [authorW], books := [bookW1, bookW2] }

/-- Witness for C9 on the concrete store `dbW`. -/
theorem delete_book_spec_witness :
    ∃ db2, delete_book dbW 1 = DeleteOutcome.ok db2 ∧
      db2.books = dbW.books.filter (fun b => b.id != 1) ∧
      ((∀ b ∈ db2.books, b.author_id ≠ authorW.id) →
        db2.authors = dbW.authors.filter (fun a => a.id != authorW.id)) ∧
      ((∃ b ∈ db2.books, b.author_id = authorW.id) → db2.authors = dbW.authors) :=
  delete_book_spec dbW 1 bookW1 authorW (by decide) (by decide) (by decide)
    (by decide) (by decide) (by decide)

end BookAlchemy
